import Mathlib

/-!
Verification of the LZArena region-based allocator (`src/lzarena.c`).

Addresses and byte counts are modelled as `Nat`. The C `uintptr_t`/`size_t`
wraparound never matters on the power-of-two alignments the claims quantify
over, except where explicitly noted in comments. Fallible C functions that
return `NULL` are modelled with `Option`. The malloc/mmap/VirtualAlloc
backend (and a user-supplied `LZArenaAllocator`) is modelled as a list of
responses, each `some buffer` (an acquired buffer's start address) or `none`
(acquisition failure), consumed in order. Byte memory is a function
`Nat → Nat`. The constants `PAGE_SIZE`, `LZARENA_DEFAULT_FACTOR`,
`sizeof(LZRegion)` and `LZARENA_DEFAULT_ALIGNMENT` come from the platform
and from `lzarena.h` (not part of the sources), so they are carried as a
configuration record.
-/

/-- Byte-addressed memory. -/
def Mem : Type := Nat → Nat

/-- Model of `memset(dst, val, n)` on modelled memory. -/
def memset (dst n val : Nat) (m : Mem) : Mem :=
  fun a => if dst ≤ a ∧ a < dst + n then val else m a

/-- Model of `memcpy(dst, src, n)` on modelled memory (simultaneous read of the source). -/
def memcpy (dst src n : Nat) (m : Mem) : Mem :=
  fun a => if dst ≤ a ∧ a < dst + n then m (src + (a - dst)) else m a

/-- Function `is_power_of_two` from lzarena.c: `(x & (x - 1)) == 0`.
For `x = 0` the C computes `0 & SIZE_MAX = 0`; the `Nat` truncated
subtraction gives `0 &&& 0 = 0`, the same result. -/
def is_power_of_two (x : Nat) : Bool :=
  x &&& (x - 1) == 0

/-- Function `align_forward` from lzarena.c. The C wraparound of `alignment - module`
at `alignment = 0` is not modelled; every claim restricts `alignment` to a
genuine power of two `2 ^ k > 0`, where no wraparound can occur. -/
def align_forward (addr alignment : Nat) : Nat :=
  let module := addr &&& (alignment - 1)
  let padding := if module = 0 then 0 else alignment - module
  padding + addr

/-- The `LZRegion` header (declared in lzarena.h, populated by
`lzregion_init`). `off` is the C `offset` cursor and `chunk` the start of
the usable span, both as addresses. `selfAddr` models the value of the
`LZRegion *` pointer itself (the header's own address inside the buffer). -/
structure LZRegion where
  selfAddr : Nat
  region_len : Nat
  chunk_len : Nat
  off : Nat
  chunk : Nat
deriving DecidableEq, Inhabited

/-- Platform / header constants: `PAGE_SIZE`, `LZARENA_DEFAULT_FACTOR`,
`sizeof(LZRegion)` and `LZARENA_DEFAULT_ALIGNMENT`. -/
structure LZConfig where
  pageSize : Nat
  factor : Nat
  regionSize : Nat
  defAlign : Nat
deriving DecidableEq

/-- Function `lzregion_init(buff_size, buffer)`: carve a region header and usable
chunk out of the buffer `[buffer, buffer + buff_size)`. The C asserts
`chunk_start <= buff_end`; when that precondition fails the `Nat`
subtraction below truncates `chunk_len` to `0`. -/
def lzregion_init (cfg : LZConfig) (buff_size buffer : Nat) : LZRegion :=
  let buff_start := buffer
  let buff_end := buff_start + buff_size
  let region_start := align_forward buff_start cfg.defAlign
  let region_end := region_start + cfg.regionSize
  let chunk_start := align_forward region_end cfg.defAlign
  let chunk_len := buff_end - chunk_start
  { selfAddr := region_start
    region_len := buff_size
    chunk_len := chunk_len
    off := chunk_start
    chunk := chunk_start }

/-- Function `lzregion_available`: the C computes `buff_end` from the cursor
(`offset + chunk_len`) and returns `buff_end - buff_start`, i.e. always
`chunk_len`; translated verbatim. -/
def lzregion_available (region : LZRegion) : Nat :=
  let buff_start := region.off
  let buff_end := buff_start + region.chunk_len
  buff_end - buff_start

/-- Function `lzregion_available_alignment`: bytes left after aligning the cursor
forward, `0` once the aligned cursor passed the chunk end. -/
def lzregion_available_alignment (alignment : Nat) (region : LZRegion) : Nat :=
  let chunk_start := region.chunk
  let chunk_end := chunk_start + region.chunk_len
  let off2 := align_forward region.off alignment
  if off2 ≥ chunk_end then 0 else chunk_end - off2

/-- Function `lzregion_alloc_align`: bump allocation from one region. Returns the
(possibly `none`) allocated address and the updated region. -/
def lzregion_alloc_align (size alignment : Nat) (region : LZRegion) :
    Option Nat × LZRegion :=
  let available := lzregion_available_alignment alignment region
  if size > available then (none, region)
  else
    let off2 := align_forward region.off alignment
    (some off2, { region with off := off2 + size })

/-- Function `lzregion_calloc_align`: allocate then `memset(ptr, 0, size)` on success. -/
def lzregion_calloc_align (size alignment : Nat) (region : LZRegion) (m : Mem) :
    Option Nat × LZRegion × Mem :=
  match lzregion_alloc_align size alignment region with
  | (some p, region2) => (some p, region2, memset p size 0 m)
  | (none, region2) => (none, region2, m)

/-- Function `lzregion_realloc_align`. When the fresh allocation fails but `ptr` is
non-null, the C calls `memcpy(NULL, ptr, old_size)` — undefined behavior;
that branch is modelled as returning `none` without a copy. -/
def lzregion_realloc_align (ptr : Option Nat) (old_size new_size alignment : Nat)
    (region : LZRegion) (m : Mem) : Option Nat × LZRegion × Mem :=
  if new_size ≤ old_size then (ptr, region, m)
  else
    match lzregion_alloc_align new_size alignment region, ptr with
    | (some q, region2), some p => (some q, region2, memcpy q p old_size m)
    | (some q, region2), none => (some q, region2, m)
    | (none, region2), _ => (none, region2, m)

/-- Function `lzregion_destroy`: the observable effect is the backend release call
`(pointer, length)` it performs; `NULL` performs none. -/
def lzregion_destroy (region : Option LZRegion) : List (Nat × Nat) :=
  match region with
  | none => []
  | some r => [(r.selfAddr, r.region_len)]

/-- The `LZArena` struct: the chain of regions from `head` onward, in chain
order, and the position of `tail` in that chain. `head` is null iff the
list is empty; the `allocator` member is modelled by the backend response
list passed to each operation. -/
structure LZArena where
  regions : List LZRegion
  tailIdx : Nat
deriving DecidableEq

/-- Buffer length computed by `append_region`: the default block
`PAGE_SIZE * LZARENA_DEFAULT_FACTOR`, or `size + sizeof(LZRegion)` rounded
up to the next multiple of it. -/
def region_buff_len (cfg : LZConfig) (size : Nat) : Nat :=
  let size2 := size + cfg.regionSize
  let buff_len := cfg.pageSize * cfg.factor
  if size2 > buff_len then
    let factor := size2 / buff_len
    let factor2 := if factor * buff_len < size2 then factor + 1 else factor
    factor2 * buff_len
  else buff_len

/-- Function `append_region(size, arena)`: acquire a buffer from the backend, carve a
region from it and link it after the current tail. Returns the C `int`
result (`true` = failure), the arena and the remaining backend responses.
Inside `lzarena_alloc_align` this is only reached when the tail is the last
chain element (or the chain is empty), which is what the list append models. -/
def append_region (cfg : LZConfig) (size : Nat) (arena : LZArena)
    (bk : List (Option Nat)) : Bool × LZArena × List (Option Nat) :=
  let buff_len := region_buff_len cfg size
  match bk with
  | [] => (true, arena, [])
  | none :: bk2 => (true, arena, bk2)
  | some buffer :: bk2 =>
      let region := lzregion_init cfg buff_len buffer
      (false, { regions := arena.regions ++ [region],
                tailIdx := arena.regions.length }, bk2)

/-- The `while(arena->tail->next)` search loop of `lzarena_alloc_align`:
the list argument is the chain suffix starting at the current tail, `i` the
tail's position; the tail advances while a next region exists and the
current one lacks `size` aligned bytes. -/
def walk_tail (size alignment : Nat) : List LZRegion → Nat → Nat
  | r :: s :: rest, i =>
      if lzregion_available_alignment alignment r < size then
        walk_tail size alignment (s :: rest) (i + 1)
      else i
  | _, i => i

/-- The final `lzregion_alloc_align(size, alignment, arena->tail)` call:
bump-allocate from the region the tail points at. -/
def alloc_at_tail (size alignment : Nat) (arena : LZArena) : Option Nat × LZArena :=
  let r := arena.regions.getD arena.tailIdx default
  let out := lzregion_alloc_align size alignment r
  (out.1, { arena with regions := arena.regions.set arena.tailIdx out.2 })

/-- The initial `if(!arena->tail && append_region(size, arena))` step:
append a first region when the chain is empty. -/
def ensure_tail (cfg : LZConfig) (size : Nat) (arena : LZArena)
    (bk : List (Option Nat)) : Bool × LZArena × List (Option Nat) :=
  if arena.regions.isEmpty then append_region cfg size arena bk
  else (false, arena, bk)

/-- The part of `lzarena_alloc_align` after the chain is known non-empty:
the tail-search loop, the conditional growth append and the final bump
allocation from the tail. -/
def alloc_from_chain (cfg : LZConfig) (size alignment : Nat) (arena1 : LZArena)
    (bk1 : List (Option Nat)) : Option Nat × LZArena × List (Option Nat) :=
  let i := walk_tail size alignment (arena1.regions.drop arena1.tailIdx) arena1.tailIdx
  let arena2 : LZArena := { arena1 with tailIdx := i }
  let available := lzregion_available_alignment alignment (arena2.regions.getD i default)
  if size > available then
    match append_region cfg size arena2 bk1 with
    | (true, arena3, bk3) => (none, arena3, bk3)
    | (false, arena3, bk3) =>
        let out := alloc_at_tail size alignment arena3
        (out.1, out.2, bk3)
  else
    let out := alloc_at_tail size alignment arena2
    (out.1, out.2, bk1)

/-- Function `lzarena_alloc_align(size, alignment, arena)`. -/
def lzarena_alloc_align (cfg : LZConfig) (size alignment : Nat) (arena : LZArena)
    (bk : List (Option Nat)) : Option Nat × LZArena × List (Option Nat) :=
  match ensure_tail cfg size arena bk with
  | (true, arena1, bk1) => (none, arena1, bk1)
  | (false, arena1, bk1) => alloc_from_chain cfg size alignment arena1 bk1

/-- Function `lzarena_calloc_align`: allocate then zero the block on success. -/
def lzarena_calloc_align (cfg : LZConfig) (size alignment : Nat) (arena : LZArena)
    (bk : List (Option Nat)) (m : Mem) :
    Option Nat × LZArena × List (Option Nat) × Mem :=
  match lzarena_alloc_align cfg size alignment arena bk with
  | (some p, arena2, bk2) => (some p, arena2, bk2, memset p size 0 m)
  | (none, arena2, bk2) => (none, arena2, bk2, m)

/-- Function `lzarena_realloc_align`. As at region level, when growth fails and
`ptr` is non-null the C reaches `memcpy(NULL, ptr, old_size)` (undefined
behavior); that branch is modelled as returning `none` without a copy. -/
def lzarena_realloc_align (cfg : LZConfig) (ptr : Option Nat)
    (old_size new_size alignment : Nat) (arena : LZArena)
    (bk : List (Option Nat)) (m : Mem) :
    Option Nat × LZArena × List (Option Nat) × Mem :=
  if new_size ≤ old_size then (ptr, arena, bk, m)
  else
    match lzarena_alloc_align cfg new_size alignment arena bk, ptr with
    | (some q, arena2, bk2), some p => (some q, arena2, bk2, memcpy q p old_size m)
    | (some q, arena2, bk2), none => (some q, arena2, bk2, m)
    | (none, arena2, bk2), _ => (none, arena2, bk2, m)

/-- Modelled from the spec: the `LZREGION_FREE` macro of lzarena.h (not in
the sources) — "resets every Region's `cursor` back to its `base` (content
not wiped)". -/
def LZREGION_FREE (region : LZRegion) : LZRegion :=
  { region with off := region.chunk }

/-- Function `lzarena_free_all`: reset every region's cursor, set `tail = head`.
No backend interaction: the function neither consumes backend responses nor
emits release calls. -/
def lzarena_free_all (arena : LZArena) : LZArena :=
  { regions := arena.regions.map LZREGION_FREE, tailIdx := 0 }

/-- Function `lzarena_report`: walk the chain accumulating
`(used += chunk_len - available, size += chunk_len)`. -/
def lzarena_report (arena : LZArena) : Nat × Nat :=
  arena.regions.foldl
    (fun acc r =>
      (acc.1 + (r.chunk_len - lzregion_available r), acc.2 + r.chunk_len))
    (0, 0)

/-- Function `lzarena_destroy`: the observable effect is the ordered list of backend
release calls `(pointer, length)`; destroying `NULL` performs none.
`arenaAddr` is the address of the arena header itself, released last with
`sizeof(LZArena)`. -/
def lzarena_destroy (arenaAddr arenaSize : Nat) (arena : Option LZArena) :
    List (Nat × Nat) :=
  match arena with
  | none => []
  | some st =>
      st.regions.map (fun r => (r.selfAddr, r.region_len)) ++ [(arenaAddr, arenaSize)]

/-- A sequence of arena allocations (size, alignment), threading state and
backend. -/
def run_allocs (cfg : LZConfig) (reqs : List (Nat × Nat))
    (arena : LZArena) (bk : List (Option Nat)) : LZArena × List (Option Nat) :=
  reqs.foldl
    (fun acc req =>
      let out := lzarena_alloc_align cfg req.1 req.2 acc.1 acc.2
      (out.2.1, out.2.2))
    (arena, bk)

/-- The spec's region invariant: `base ≤ cursor ≤ base + usableLength`. -/
def RegionWF (r : LZRegion) : Prop :=
  r.chunk ≤ r.off ∧ r.off ≤ r.chunk + r.chunk_len

/-- Usable spans of two regions occupy disjoint address ranges (an empty
span is disjoint from everything). -/
def SpanDisjoint (r s : LZRegion) : Prop :=
  r.chunk + r.chunk_len ≤ s.chunk ∨ s.chunk + s.chunk_len ≤ r.chunk ∨
    r.chunk_len = 0 ∨ s.chunk_len = 0

/-- A backend buffer `[buffer, buffer + len)` does not intersect the usable
span of any region already in the arena. -/
def FreshBuffer (arena : LZArena) (buffer len : Nat) : Prop :=
  ∀ r ∈ arena.regions, r.chunk + r.chunk_len ≤ buffer ∨ buffer + len ≤ r.chunk

/-- The tail pointer is a valid chain position (and "null" exactly when the
chain is empty). -/
def TailWF (arena : LZArena) : Prop :=
  (arena.regions = [] → arena.tailIdx = 0) ∧
    (arena.regions ≠ [] → arena.tailIdx < arena.regions.length)

/-- Arena invariant: every cursor sits at or after its chunk base, usable
spans are pairwise disjoint, and the tail position is valid. -/
def ArenaWF (arena : LZArena) : Prop :=
  (∀ r ∈ arena.regions, r.chunk ≤ r.off) ∧
    arena.regions.Pairwise SpanDisjoint ∧ TailWF arena

/-- A live allocation `[q, q + s)`: handed out earlier (no reset since), so
it lies in some region's span below that region's cursor. Zero-sized
blocks occupy no addresses. -/
def LiveAlloc (arena : LZArena) (q s : Nat) : Prop :=
  s = 0 ∨ ∃ r ∈ arena.regions,
    r.chunk ≤ q ∧ q + s ≤ r.off ∧ q + s ≤ r.chunk + r.chunk_len

/-- Freshness of the (at most two) backend buffers one `lzarena_alloc_align`
call can consume: each acquired buffer is disjoint from the existing spans,
and the two buffers are mutually disjoint. -/
def BackendOK (cfg : LZConfig) (size : Nat) (arena : LZArena)
    (bk : List (Option Nat)) : Prop :=
  match bk with
  | some b1 :: rest =>
      FreshBuffer arena b1 (region_buff_len cfg size) ∧
        (match rest with
         | some b2 :: _ =>
             (b1 + region_buff_len cfg size ≤ b2 ∨
               b2 + region_buff_len cfg size ≤ b1) ∧
               FreshBuffer arena b2 (region_buff_len cfg size)
         | _ => True)
  | _ => True

instance : DecidablePred RegionWF := fun r => by
  unfold RegionWF; infer_instance

instance (r s : LZRegion) : Decidable (SpanDisjoint r s) := by
  unfold SpanDisjoint; infer_instance

instance (arena : LZArena) (buffer len : Nat) :
    Decidable (FreshBuffer arena buffer len) := by
  unfold FreshBuffer; infer_instance

instance : DecidablePred TailWF := fun arena => by
  unfold TailWF; infer_instance

instance : DecidablePred ArenaWF := fun arena => by
  unfold ArenaWF; infer_instance

instance (arena : LZArena) (q s : Nat) : Decidable (LiveAlloc arena q s) := by
  unfold LiveAlloc; infer_instance

instance (cfg : LZConfig) (size : Nat) (arena : LZArena) :
    ∀ bk : List (Option Nat), Decidable (BackendOK cfg size arena bk)
  | [] => isTrue True.intro
  | none :: _ => isTrue True.intro
  | some b1 :: [] =>
      inferInstanceAs (Decidable (FreshBuffer arena b1 (region_buff_len cfg size) ∧ True))
  | some b1 :: none :: _ =>
      inferInstanceAs (Decidable (FreshBuffer arena b1 (region_buff_len cfg size) ∧ True))
  | some b1 :: some b2 :: _ =>
      inferInstanceAs (Decidable (FreshBuffer arena b1 (region_buff_len cfg size) ∧
        ((b1 + region_buff_len cfg size ≤ b2 ∨
            b2 + region_buff_len cfg size ≤ b1) ∧
          FreshBuffer arena b2 (region_buff_len cfg size))))

/-! Helper lemmas about the alignment arithmetic. -/

theorem align_forward_two_pow (addr k : Nat) :
    align_forward addr (2 ^ k) =
      if addr % 2 ^ k = 0 then addr else addr + (2 ^ k - addr % 2 ^ k) := by
  unfold align_forward
  simp only [Nat.and_pow_two_sub_one_eq_mod]
  by_cases h : addr % 2 ^ k = 0 <;> simp [h] <;> omega

theorem le_align_forward (addr alignment : Nat) : addr ≤ align_forward addr alignment := by
  unfold align_forward
  dsimp only
  split <;> omega

theorem align_forward_mod (addr k : Nat) : align_forward addr (2 ^ k) % 2 ^ k = 0 := by
  rw [align_forward_two_pow]
  by_cases h : addr % 2 ^ k = 0
  · simpa [h]
  · have hpos : 0 < 2 ^ k := Nat.two_pow_pos k
    have hd := Nat.div_add_mod addr (2 ^ k)
    have hlt : addr % 2 ^ k < 2 ^ k := Nat.mod_lt _ hpos
    simp only [h, if_false]
    have he : addr + (2 ^ k - addr % 2 ^ k) = 2 ^ k * (addr / 2 ^ k) + 2 ^ k := by omega
    rw [he, ← Nat.mul_succ]
    exact Nat.mul_mod_right _ _

theorem align_forward_of_dvd {k addr : Nat} (h : 2 ^ k ∣ addr) :
    align_forward addr (2 ^ k) = addr := by
  rw [align_forward_two_pow]
  simp [Nat.mod_eq_zero_of_dvd h]

/-! Helper lemmas about region-level allocation. -/

theorem lzregion_available_eq (r : LZRegion) : lzregion_available r = r.chunk_len := by
  unfold lzregion_available
  dsimp only
  omega

theorem lzregion_alloc_align_some {size alignment : Nat} {r r' : LZRegion} {p : Nat}
    (h : lzregion_alloc_align size alignment r = (some p, r')) :
    p = align_forward r.off alignment ∧
      r' = { r with off := p + size } ∧
      size ≤ lzregion_available_alignment alignment r := by
  unfold lzregion_alloc_align at h
  dsimp only at h
  split at h
  · simp at h
  · rename_i hle
    simp only [Prod.mk.injEq, Option.some.injEq] at h
    exact ⟨h.1.symm, by rw [← h.2, ← h.1], by omega⟩

theorem lzregion_alloc_align_none {size alignment : Nat} {r r' : LZRegion}
    (h : lzregion_alloc_align size alignment r = (none, r')) : r' = r := by
  unfold lzregion_alloc_align at h
  dsimp only at h
  split at h
  · simp only [Prod.mk.injEq] at h
    exact h.2.symm
  · simp at h

theorem lzregion_available_alignment_le {size alignment : Nat} {r : LZRegion}
    (hs : 0 < size) (h : size ≤ lzregion_available_alignment alignment r) :
    align_forward r.off alignment + size ≤ r.chunk + r.chunk_len := by
  unfold lzregion_available_alignment at h
  dsimp only at h
  split at h <;> omega

theorem list_set_same : ∀ (l : List LZRegion) (i : Nat) (a : LZRegion),
    l[i]? = some a → l.set i a = l
  | [], _, _, h => by simp at h
  | x :: xs, 0, a, h => by
      simp only [List.getElem?_cons_zero, Option.some.injEq] at h
      simp [← h]
  | x :: xs, i + 1, a, h => by
      simp only [List.getElem?_cons_succ] at h
      simp [list_set_same xs i a h]

/-! Helper lemmas about `lzarena_report`. -/

theorem report_foldl_fst (l : List LZRegion) : ∀ acc : Nat × Nat,
    (l.foldl
        (fun acc r => (acc.1 + (r.chunk_len - lzregion_available r), acc.2 + r.chunk_len))
        acc).1 = acc.1 := by
  induction l with
  | nil => intro acc; rfl
  | cons x xs ih =>
      intro acc
      rw [List.foldl_cons, ih]
      simp [lzregion_available_eq]

theorem report_foldl_snd (l : List LZRegion) : ∀ acc : Nat × Nat,
    (l.foldl
        (fun acc r => (acc.1 + (r.chunk_len - lzregion_available r), acc.2 + r.chunk_len))
        acc).2 = acc.2 + (l.map LZRegion.chunk_len).sum := by
  induction l with
  | nil => intro acc; simp
  | cons x xs ih =>
      intro acc
      rw [List.foldl_cons, ih]
      simp only [List.map_cons, List.sum_cons]
      omega

/-- Claim C2 (code bug): a zero-size allocation whose aligned cursor has
passed the chunk end still succeeds and pushes the cursor out of bounds.
Region with base 0, usable length 10, cursor 9: `lzregion_alloc_align(0, 8)`
returns pointer 16 and sets the cursor to 16 > base + usableLength = 10,
violating the invariant the claim states is preserved. -/
theorem lzregion_alloc_align_zero_size_breaks_invariant :
    RegionWF ⟨0, 32, 10, 9, 0⟩ ∧
      (lzregion_alloc_align 0 8 ⟨0, 32, 10, 9, 0⟩).1 = some 16 ∧
      ¬ RegionWF (lzregion_alloc_align 0 8 ⟨0, 32, 10, 9, 0⟩).2 := by
  decide

/-- Claim C5 (code bug): on a region with base 0, usable length 16, cursor 8,
`lzregion_available` returns 16 (the whole `chunk_len`) instead of
`base + usableLength − cursor = 8`: the C computes the span end from the
cursor (`offset + chunk_len`) instead of from the base. -/
theorem lzregion_available_ignores_cursor :
    lzregion_available ⟨0, 32, 16, 8, 0⟩ = 16 ∧
      ((⟨0, 32, 16, 8, 0⟩ : LZRegion).chunk +
          (⟨0, 32, 16, 8, 0⟩ : LZRegion).chunk_len -
          (⟨0, 32, 16, 8, 0⟩ : LZRegion).off = 8) ∧
      (16 : Nat) ≠ 8 := by
  decide

/-- Claim C6 (counterexample): `is_power_of_two 0` returns true, though 0
has no set bit: `0 & (0 - 1)` is `0` (`0 & SIZE_MAX` in C). -/
theorem is_power_of_two_zero : is_power_of_two 0 = true := by decide

/-- Claim C6 (amended): `is_power_of_two x` is true iff `x` has at most one
set bit, i.e. `x = 0` or `x` is a power of two. -/
theorem is_power_of_two_iff (x : Nat) :
    is_power_of_two x = true ↔ x = 0 ∨ ∃ k, x = 2 ^ k := by
  unfold is_power_of_two
  rw [beq_iff_eq]
  constructor
  · intro h
    rcases Nat.eq_zero_or_pos x with hx | hx
    · exact Or.inl hx
    · refine Or.inr ⟨x.log2, ?_⟩
      by_contra hne
      have h1 : 2 ^ x.log2 ≤ x := Nat.log2_self_le (by omega)
      have h2 : x < 2 ^ (x.log2 + 1) := Nat.lt_log2_self
      have h3 : 2 ^ x.log2 < x := Nat.lt_of_le_of_ne h1 fun e => hne e.symm
      have hs : 2 ^ (x.log2 + 1) = 2 ^ x.log2 * 2 := by rw [Nat.pow_succ]
      have hb1 : x / 2 ^ x.log2 = 1 := Nat.div_eq_of_lt_le (by omega) (by omega)
      have hb2 : (x - 1) / 2 ^ x.log2 = 1 := Nat.div_eq_of_lt_le (by omega) (by omega)
      have ht1 : x.testBit x.log2 = true := by
        simp [Nat.testBit_to_div_mod, hb1]
      have ht2 : (x - 1).testBit x.log2 = true := by
        simp [Nat.testBit_to_div_mod, hb2]
      have hand := Nat.testBit_and x (x - 1) x.log2
      rw [h, ht1, ht2] at hand
      simp at hand
  · rintro (rfl | ⟨k, rfl⟩)
    · decide
    · rw [Nat.and_pow_two_sub_one_eq_mod, Nat.mod_self]

/-- Claim C7: after `lzarena_free_all`, every region's cursor is back at its
base, the tail is back at the head, every region's identity (header address,
buffer length, chunk base and length) and the chain order are retained with
no backend interaction, and an immediately following `lzarena_report` gives
`used = 0` with `total` unchanged. -/
theorem lzarena_free_all_resets (st : LZArena) :
    (∀ r ∈ (lzarena_free_all st).regions, r.off = r.chunk) ∧
      (lzarena_free_all st).tailIdx = 0 ∧
      (lzarena_free_all st).regions.map
          (fun r => (r.selfAddr, r.region_len, r.chunk, r.chunk_len)) =
        st.regions.map (fun r => (r.selfAddr, r.region_len, r.chunk, r.chunk_len)) ∧
      (lzarena_report (lzarena_free_all st)).1 = 0 ∧
      (lzarena_report (lzarena_free_all st)).2 = (lzarena_report st).2 := by
  refine ⟨?_, rfl, ?_, ?_, ?_⟩
  · intro r hr
    simp only [lzarena_free_all, List.mem_map] at hr
    rcases hr with ⟨x, hx, rfl⟩
    rfl
  · simp [lzarena_free_all, List.map_map, LZREGION_FREE, Function.comp]
  · unfold lzarena_report
    exact report_foldl_fst _ _
  · unfold lzarena_report
    rw [report_foldl_snd, report_foldl_snd]
    have hmc : (lzarena_free_all st).regions.map LZRegion.chunk_len =
        st.regions.map LZRegion.chunk_len := by
      simp only [lzarena_free_all, List.map_map]
      exact List.map_congr_left fun r _ => rfl
    rw [hmc]

/-- Claim C10: destroying a null arena or a null region performs no backend
release call (and no other effect). -/
theorem destroy_null_noop :
    (∀ arenaAddr arenaSize : Nat, lzarena_destroy arenaAddr arenaSize none = []) ∧
      lzregion_destroy none = [] :=
  ⟨fun _ _ => rfl, rfl⟩

/-! Helper lemmas about the tail-search loop and the append step. -/

theorem walk_tail_result (size alignment : Nat) :
    ∀ (l : List LZRegion) (i : Nat), l ≠ [] →
      ∃ k, walk_tail size alignment l i = i + k ∧ k < l.length ∧
        (size ≤ lzregion_available_alignment alignment (l.getD k default) ∨
          k = l.length - 1) := by
  intro l
  induction l with
  | nil => intro i hne; exact absurd rfl hne
  | cons r rest ih =>
      intro i _
      cases rest with
      | nil =>
          refine ⟨0, by simp [walk_tail], by simp, Or.inr rfl⟩
      | cons s rest2 =>
          by_cases hc : lzregion_available_alignment alignment r < size
          · rcases ih (i + 1) (by simp) with ⟨k, hw, hk, hcond⟩
            refine ⟨k + 1, ?_, ?_, ?_⟩
            · simp only [walk_tail, hc, if_true]
              omega
            · simp only [List.length_cons] at hk ⊢
              omega
            · rcases hcond with hgood | hlast
              · exact Or.inl (by simpa using hgood)
              · right
                simp only [List.length_cons] at hlast ⊢
                omega
          · refine ⟨0, ?_, by simp, Or.inl ?_⟩
            · simp [walk_tail, hc]
            · simpa using Nat.le_of_not_lt hc

theorem ensure_tail_true {cfg : LZConfig} {size : Nat} {st st1 : LZArena}
    {bk bk1 : List (Option Nat)}
    (h : ensure_tail cfg size st bk = (true, st1, bk1)) :
    st1 = st ∧ st.regions = [] := by
  unfold ensure_tail at h
  split at h
  · rename_i hemp
    unfold append_region at h
    dsimp only at h
    rcases bk with _ | ⟨_ | b, bk2⟩ <;> simp_all [List.isEmpty_iff]
  · simp at h

theorem ensure_tail_false {cfg : LZConfig} {size : Nat} {st st1 : LZArena}
    {bk bk1 : List (Option Nat)}
    (h : ensure_tail cfg size st bk = (false, st1, bk1)) :
    (st.regions ≠ [] ∧ st1 = st ∧ bk1 = bk) ∨
      (st.regions = [] ∧ ∃ b, bk = some b :: bk1 ∧
        st1 = { regions := [lzregion_init cfg (region_buff_len cfg size) b],
                tailIdx := 0 }) := by
  unfold ensure_tail at h
  split at h
  · rename_i hemp
    rw [List.isEmpty_iff] at hemp
    unfold append_region at h
    dsimp only at h
    rcases bk with _ | ⟨_ | b, bk2⟩
    · simp at h
    · simp at h
    · right
      simp only [Prod.mk.injEq] at h
      refine ⟨hemp, b, ?_, ?_⟩
      · rw [h.2.2]
      · rw [← h.2.1, hemp]
        simp
  · left
    simp only [Prod.mk.injEq] at h
    rename_i hemp
    rw [List.isEmpty_iff] at hemp
    exact ⟨hemp, h.2.1.symm, h.2.2.symm⟩

theorem append_region_false {cfg : LZConfig} {size : Nat} {st st1 : LZArena}
    {bk bk1 : List (Option Nat)}
    (h : append_region cfg size st bk = (false, st1, bk1)) :
    ∃ b, bk = some b :: bk1 ∧
      st1 = { regions := st.regions ++ [lzregion_init cfg (region_buff_len cfg size) b],
              tailIdx := st.regions.length } := by
  unfold append_region at h
  dsimp only at h
  rcases bk with _ | ⟨_ | b, bk2⟩
  · simp at h
  · simp at h
  · simp only [Prod.mk.injEq] at h
    exact ⟨b, by rw [h.2.2], h.2.1.symm⟩

theorem append_region_true {cfg : LZConfig} {size : Nat} {st st1 : LZArena}
    {bk bk1 : List (Option Nat)}
    (h : append_region cfg size st bk = (true, st1, bk1)) : st1 = st := by
  unfold append_region at h
  dsimp only at h
  rcases bk with _ | ⟨_ | b, bk2⟩ <;> simp_all

theorem alloc_at_tail_eq (size alignment : Nat) (st : LZArena) :
    alloc_at_tail size alignment st =
      ((lzregion_alloc_align size alignment (st.regions.getD st.tailIdx default)).1,
        { st with regions := st.regions.set st.tailIdx ((lzregion_alloc_align size alignment (st.regions.getD st.tailIdx default)).2) }) := rfl

theorem alloc_from_chain_some_shape {cfg : LZConfig} {size alignment : Nat}
    {st1 : LZArena} {bk1 : List (Option Nat)} {p : Nat} {st' : LZArena}
    {bk' : List (Option Nat)}
    (htw1 : st1.tailIdx < st1.regions.length)
    (h : alloc_from_chain cfg size alignment st1 bk1 = (some p, st', bk')) :
    ∃ (base : List LZRegion) (i : Nat) (r r' : LZRegion),
      i < base.length ∧ base[i]? = some r ∧
        lzregion_alloc_align size alignment r = (some p, r') ∧
        st'.regions = base.set i r' ∧ st'.tailIdx = i ∧ st1.tailIdx ≤ i ∧
        ((base = st1.regions ∧ bk' = bk1) ∨
          (∃ b, bk1.head? = some (some b) ∧
            base = st1.regions ++ [lzregion_init cfg (region_buff_len cfg size) b] ∧
            i = st1.regions.length ∧ bk' = bk1.tail)) := by
  obtain ⟨k, hW, hk, -⟩ :=
    walk_tail_result size alignment (st1.regions.drop st1.tailIdx) st1.tailIdx
      (by rw [ne_eq, List.drop_eq_nil_iff]; omega)
  unfold alloc_from_chain at h
  dsimp only at h
  set W := walk_tail size alignment (st1.regions.drop st1.tailIdx) st1.tailIdx with hWdef
  rw [List.length_drop] at hk
  have hWlt : W < st1.regions.length := by omega
  have hWge : st1.tailIdx ≤ W := by omega
  split at h
  · rcases hap : append_region cfg size ⟨st1.regions, W⟩ bk1 with ⟨f2, st3, bk3⟩
    rw [hap] at h
    cases f2
    · obtain ⟨b, hbk, hst3⟩ := append_region_false hap
      dsimp only at h
      rw [alloc_at_tail_eq] at h
      subst hst3
      dsimp only at h
      have hgd : (st1.regions ++ [lzregion_init cfg (region_buff_len cfg size) b]).getD
          st1.regions.length default = lzregion_init cfg (region_buff_len cfg size) b := by
        simp [List.getD_eq_getElem?_getD, List.getElem?_concat_length]
      rw [hgd] at h
      rcases hra : lzregion_alloc_align size alignment
          (lzregion_init cfg (region_buff_len cfg size) b) with ⟨po, r'⟩
      rw [hra] at h
      simp only [Prod.mk.injEq] at h
      obtain ⟨hpo, hst', hbk'⟩ := h
      refine ⟨st1.regions ++ [lzregion_init cfg (region_buff_len cfg size) b],
        st1.regions.length, lzregion_init cfg (region_buff_len cfg size) b, r',
        by simp, List.getElem?_concat_length _ _, by rw [hra, hpo], ?_, ?_, by omega,
        Or.inr ⟨b, by rw [hbk]; rfl, rfl, rfl, by rw [hbk]; exact hbk'.symm⟩⟩
      · rw [← hst']
      · rw [← hst']
    · have := append_region_true hap
      dsimp only at h
      simp at h
  · rw [alloc_at_tail_eq] at h
    dsimp only at h
    rcases hra : lzregion_alloc_align size alignment (st1.regions.getD W default)
      with ⟨po, r'⟩
    rw [hra] at h
    simp only [Prod.mk.injEq] at h
    obtain ⟨hpo, hst', hbk'⟩ := h
    have hgr : st1.regions[W]? = some (st1.regions.getD W default) := by
      rw [List.getD_eq_getElem?_getD, List.getElem?_eq_getElem hWlt]
      rfl
    refine ⟨st1.regions, W, st1.regions.getD W default, r', hWlt, hgr,
      by rw [hra, hpo], ?_, ?_, hWge, Or.inl ⟨rfl, hbk'.symm⟩⟩
    · rw [← hst']
    · rw [← hst']

theorem alloc_from_chain_none_shape {cfg : LZConfig} {size alignment : Nat}
    {st1 : LZArena} {bk1 : List (Option Nat)} {st' : LZArena}
    {bk' : List (Option Nat)}
    (htw1 : st1.tailIdx < st1.regions.length)
    (h : alloc_from_chain cfg size alignment st1 bk1 = (none, st', bk')) :
    st1.tailIdx ≤ st'.tailIdx ∧ st'.tailIdx < st'.regions.length ∧
      (st'.regions = st1.regions ∨
        ∃ b, bk1.head? = some (some b) ∧
          st'.regions = st1.regions ++ [lzregion_init cfg (region_buff_len cfg size) b]) := by
  obtain ⟨k, hW, hk, -⟩ :=
    walk_tail_result size alignment (st1.regions.drop st1.tailIdx) st1.tailIdx
      (by rw [ne_eq, List.drop_eq_nil_iff]; omega)
  unfold alloc_from_chain at h
  dsimp only at h
  set W := walk_tail size alignment (st1.regions.drop st1.tailIdx) st1.tailIdx with hWdef
  rw [List.length_drop] at hk
  have hWlt : W < st1.regions.length := by omega
  have hWge : st1.tailIdx ≤ W := by omega
  split at h
  · rcases hap : append_region cfg size ⟨st1.regions, W⟩ bk1 with ⟨f2, st3, bk3⟩
    rw [hap] at h
    cases f2
    · obtain ⟨b, hbk, hst3⟩ := append_region_false hap
      dsimp only at h
      rw [alloc_at_tail_eq] at h
      subst hst3
      dsimp only at h
      rcases hra : lzregion_alloc_align size alignment
          ((st1.regions ++ [lzregion_init cfg (region_buff_len cfg size) b]).getD
            st1.regions.length default) with ⟨po, r'⟩
      rw [hra] at h
      simp only [Prod.mk.injEq] at h
      obtain ⟨hpo, hst', hbk'⟩ := h
      have hr' : r' = (st1.regions ++ [lzregion_init cfg (region_buff_len cfg size) b]).getD
          st1.regions.length default := by
        apply lzregion_alloc_align_none
        rw [hra, ← hpo]
      have hsame : (st1.regions ++ [lzregion_init cfg (region_buff_len cfg size) b]).set
            st1.regions.length r' =
          st1.regions ++ [lzregion_init cfg (region_buff_len cfg size) b] := by
        apply list_set_same
        rw [hr']
        simp [List.getD_eq_getElem?_getD, List.getElem?_concat_length]
      constructor
      · rw [← hst']
        dsimp only
        omega
      constructor
      · rw [← hst']
        dsimp only
        rw [hsame]
        simp
      · right
        refine ⟨b, by rw [hbk]; rfl, ?_⟩
        rw [← hst']
        dsimp only
        rw [hsame]
    · have hst3 := append_region_true hap
      dsimp only at h
      simp only [Prod.mk.injEq] at h
      obtain ⟨-, hst', hbk'⟩ := h
      subst hst3
      rw [← hst']
      exact ⟨hWge, hWlt, Or.inl rfl⟩
  · rw [alloc_at_tail_eq] at h
    dsimp only at h
    rcases hra : lzregion_alloc_align size alignment (st1.regions.getD W default)
      with ⟨po, r'⟩
    rw [hra] at h
    simp only [Prod.mk.injEq] at h
    obtain ⟨hpo, hst', hbk'⟩ := h
    have hr' : r' = st1.regions.getD W default := by
      apply lzregion_alloc_align_none
      rw [hra, ← hpo]
    have hsame : st1.regions.set W r' = st1.regions := by
      apply list_set_same
      rw [hr', List.getD_eq_getElem?_getD, List.getElem?_eq_getElem hWlt]
      rfl
    rw [← hst']
    dsimp only
    rw [hsame]
    exact ⟨hWge, hWlt, Or.inl rfl⟩

theorem lzarena_alloc_align_some_shape {cfg : LZConfig} {size alignment : Nat}
    {st : LZArena} {bk : List (Option Nat)} {p : Nat} {st' : LZArena}
    {bk' : List (Option Nat)}
    (htw : TailWF st)
    (h : lzarena_alloc_align cfg size alignment st bk = (some p, st', bk')) :
    ∃ (base : List LZRegion) (i : Nat) (r r' : LZRegion),
      i < base.length ∧ base[i]? = some r ∧
        lzregion_alloc_align size alignment r = (some p, r') ∧
        st'.regions = base.set i r' ∧ st'.tailIdx = i ∧ st.tailIdx ≤ i ∧
        (base = st.regions ∨
          (∃ b, bk.head? = some (some b) ∧
            base = st.regions ++ [lzregion_init cfg (region_buff_len cfg size) b]) ∨
          (∃ b1 b2, st.regions = [] ∧ bk[0]? = some (some b1) ∧
            bk[1]? = some (some b2) ∧
            base = [lzregion_init cfg (region_buff_len cfg size) b1,
              lzregion_init cfg (region_buff_len cfg size) b2])) := by
  unfold lzarena_alloc_align at h
  rcases he : ensure_tail cfg size st bk with ⟨f1, st1, bk1⟩
  rw [he] at h
  cases f1 with
  | true =>
      dsimp only at h
      simp at h
  | false =>
      dsimp only at h
      rcases ensure_tail_false he with ⟨hne, hst1, hbk1⟩ | ⟨hemp, b0, hbkeq, hst1⟩
      · subst hst1
        subst hbk1
        have htw1 := htw.2 hne
        obtain ⟨base, i, r, r', hi, hget, hsucc, hregs, htl, hmono, hprov⟩ :=
          alloc_from_chain_some_shape htw1 h
        refine ⟨base, i, r, r', hi, hget, hsucc, hregs, htl, hmono, ?_⟩
        rcases hprov with ⟨hb, -⟩ | ⟨b, hh, hb, -, -⟩
        · exact Or.inl hb
        · exact Or.inr (Or.inl ⟨b, hh, hb⟩)
      · subst hst1
        have hst0 : st.tailIdx = 0 := htw.1 hemp
        obtain ⟨base, i, r, r', hi, hget, hsucc, hregs, htl, hmono, hprov⟩ :=
          alloc_from_chain_some_shape (by simp) h
        refine ⟨base, i, r, r', hi, hget, hsucc, hregs, htl, by omega, ?_⟩
        rcases hprov with ⟨hb, -⟩ | ⟨b, hh, hb, hieq, -⟩
        · refine Or.inr (Or.inl ⟨b0, ?_, ?_⟩)
          · rw [hbkeq]
            rfl
          · rw [hemp]
            simpa using hb
        · refine Or.inr (Or.inr ⟨b0, b, hemp, ?_, ?_, ?_⟩)
          · rw [hbkeq]
            simp
          · rw [hbkeq]
            rw [List.head?_eq_getElem?] at hh
            simpa using hh
          · simpa using hb

/-! Span disjointness of freshly carved regions. -/

theorem init_span_in_buffer (cfg : LZConfig) (L b : Nat) :
    (lzregion_init cfg L b).chunk_len = 0 ∨
      (b ≤ (lzregion_init cfg L b).chunk ∧
        (lzregion_init cfg L b).chunk + (lzregion_init cfg L b).chunk_len ≤ b + L) := by
  unfold lzregion_init
  dsimp only
  have hbc : b ≤ align_forward (align_forward b cfg.defAlign + cfg.regionSize) cfg.defAlign :=
    le_trans (le_align_forward b _)
      (le_trans (Nat.le_add_right _ _) (le_align_forward _ _))
  by_cases hle : align_forward (align_forward b cfg.defAlign + cfg.regionSize) cfg.defAlign ≤ b + L
  · right
    exact ⟨hbc, by omega⟩
  · left
    omega

theorem fresh_span_disjoint {st : LZArena} {b L : Nat} (cfg : LZConfig)
    (hf : FreshBuffer st b L) :
    ∀ r ∈ st.regions, SpanDisjoint r (lzregion_init cfg L b) := by
  intro r hr
  rcases init_span_in_buffer cfg L b with h0 | ⟨h1, h2⟩
  · exact Or.inr (Or.inr (Or.inr h0))
  · rcases hf r hr with hA | hB
    · exact Or.inl (by omega)
    · exact Or.inr (Or.inl (by omega))

theorem two_fresh_span_disjoint (cfg : LZConfig) {b1 b2 L : Nat}
    (hd : b1 + L ≤ b2 ∨ b2 + L ≤ b1) :
    SpanDisjoint (lzregion_init cfg L b1) (lzregion_init cfg L b2) := by
  rcases init_span_in_buffer cfg L b1 with h0 | ⟨h1, h2⟩
  · exact Or.inr (Or.inr (Or.inl h0))
  · rcases init_span_in_buffer cfg L b2 with g0 | ⟨g1, g2⟩
    · exact Or.inr (Or.inr (Or.inr g0))
    · rcases hd with h | h
      · exact Or.inl (by omega)
      · exact Or.inr (Or.inl (by omega))

theorem span_disjoint_comm {r s : LZRegion} (h : SpanDisjoint r s) : SpanDisjoint s r := by
  unfold SpanDisjoint at h ⊢
  tauto

theorem pairwise_span_disjoint_get {l : List LZRegion} (hpw : l.Pairwise SpanDisjoint)
    {i j : Nat} (hi : i < l.length) (hj : j < l.length) (hne : i ≠ j) :
    SpanDisjoint (l.get ⟨i, hi⟩) (l.get ⟨j, hj⟩) := by
  rcases Nat.lt_or_ge i j with hlt | hge
  · exact List.pairwise_iff_get.1 hpw ⟨i, hi⟩ ⟨j, hj⟩ hlt
  · have hlt2 : j < i := by omega
    exact span_disjoint_comm (List.pairwise_iff_get.1 hpw ⟨j, hj⟩ ⟨i, hi⟩ hlt2)

/-- Core soundness of one successful bump allocation against a list of
regions with well-placed cursors and pairwise disjoint spans: the result is
aligned, inside the chosen region's span, and disjoint from every block
lying below a cursor. -/
theorem region_list_alloc_sound {l : List LZRegion} {i : Nat} {r r' : LZRegion}
    {size alignment k p : Nat}
    (hal : alignment = 2 ^ k)
    (hwf : ∀ s ∈ l, s.chunk ≤ s.off)
    (hpw : l.Pairwise SpanDisjoint)
    (hi : l[i]? = some r)
    (hsucc : lzregion_alloc_align size alignment r = (some p, r')) :
    p % alignment = 0 ∧
      (∀ a, p ≤ a → a < p + size → r.chunk ≤ a ∧ a < r.chunk + r.chunk_len) ∧
      (∀ q s, (s = 0 ∨ ∃ rr ∈ l, rr.chunk ≤ q ∧ q + s ≤ rr.off ∧
          q + s ≤ rr.chunk + rr.chunk_len) →
        ∀ a, p ≤ a → a < p + size → ¬(q ≤ a ∧ a < q + s)) := by
  obtain ⟨hp, hr', hle⟩ := lzregion_alloc_align_some hsucc
  have hrmem : r ∈ l := List.getElem?_mem hi
  have hoff : r.chunk ≤ r.off := hwf r hrmem
  have hpge : r.off ≤ p := by
    rw [hp]
    exact le_align_forward _ _
  have hwithin : ∀ a, p ≤ a → a < p + size →
      r.chunk ≤ a ∧ a < r.chunk + r.chunk_len := by
    intro a ha1 ha2
    have hs : 0 < size := by omega
    have hb := lzregion_available_alignment_le hs hle
    rw [← hp] at hb
    omega
  refine ⟨by rw [hp, hal]; exact align_forward_mod _ _, hwithin, ?_⟩
  intro q s hlive a ha1 ha2 hin
  have hspos : 0 < s := by omega
  rcases hlive with h0 | ⟨rr, hrr, hq1, hq2, hq3⟩
  · omega
  · have haspan := hwithin a ha1 ha2
    obtain ⟨hilt, hieq⟩ := List.getElem?_eq_some_iff.1 hi
    obtain ⟨j, hjlt, hjeq⟩ := List.mem_iff_getElem.1 hrr
    by_cases hij : i = j
    · subst hij
      have hre : rr = r := by rw [← hjeq, hieq]
      rw [hre] at hq2
      omega
    · have hdisj := pairwise_span_disjoint_get hpw hilt hjlt hij
      rw [List.get_eq_getElem, List.get_eq_getElem, hieq, hjeq] at hdisj
      unfold SpanDisjoint at hdisj
      omega

/-- Full soundness of one `lzarena_alloc_align` call: under the arena
invariant and a well-behaved backend, a returned pointer is a multiple of
the alignment, the requested range sits inside a single region's usable
span, and it does not intersect any live allocation. -/
theorem lzarena_alloc_align_core_sound {cfg : LZConfig} {st : LZArena}
    {bk : List (Option Nat)} {size alignment k p : Nat} {st' : LZArena}
    {bk' : List (Option Nat)}
    (hal : alignment = 2 ^ k)
    (hwf : ArenaWF st)
    (hbk : BackendOK cfg size st bk)
    (h : lzarena_alloc_align cfg size alignment st bk = (some p, st', bk')) :
    p % alignment = 0 ∧
      (∃ r ∈ st'.regions, ∀ a, p ≤ a → a < p + size →
        r.chunk ≤ a ∧ a < r.chunk + r.chunk_len) ∧
      (∀ q s, LiveAlloc st q s → ∀ a, p ≤ a → a < p + size →
        ¬(q ≤ a ∧ a < q + s)) := by
  obtain ⟨hwf1, hpw, htw⟩ := hwf
  obtain ⟨base, i, r, r', hi, hget, hsucc, hregs, htl, hmono, hprov⟩ :=
    lzarena_alloc_align_some_shape htw h
  have hbase : (∀ s ∈ base, s.chunk ≤ s.off) ∧ base.Pairwise SpanDisjoint ∧
      (∀ rr ∈ st.regions, rr ∈ base) := by
    rcases hprov with rfl | ⟨b, hh, rfl⟩ | ⟨b1, b2, hemp, h0, h1, rfl⟩
    · exact ⟨hwf1, hpw, fun rr hr => hr⟩
    · have hfresh : FreshBuffer st b (region_buff_len cfg size) := by
        rcases bk with _ | ⟨o, t⟩
        · simp at hh
        · have he : o = some b := by simpa using hh
          subst he
          exact hbk.1
      refine ⟨?_, ?_, fun rr hr => List.mem_append_left _ hr⟩
      · intro s hs
        rcases List.mem_append.1 hs with hs | hs
        · exact hwf1 s hs
        · rcases List.mem_singleton.1 hs with rfl
          exact Nat.le_refl _
      · rw [List.pairwise_append]
        refine ⟨hpw, List.pairwise_singleton _ _, ?_⟩
        intro r1 h1 r2 h2
        rcases List.mem_singleton.1 h2 with rfl
        exact fresh_span_disjoint cfg hfresh r1 h1
    · have hbk2 : b1 + region_buff_len cfg size ≤ b2 ∨
          b2 + region_buff_len cfg size ≤ b1 := by
        rcases bk with _ | ⟨o0, t⟩
        · simp at h0
        · rcases t with _ | ⟨o1, t2⟩
          · simp at h1
          · have e0 : o0 = some b1 := by simpa using h0
            have e1 : o1 = some b2 := by simpa using h1
            subst e0
            subst e1
            exact hbk.2.1
      refine ⟨?_, ?_, ?_⟩
      · intro s hs
        rcases List.mem_cons.1 hs with rfl | hs
        · exact Nat.le_refl _
        · rcases List.mem_singleton.1 hs with rfl
          exact Nat.le_refl _
      · refine List.pairwise_cons.2 ⟨?_, List.pairwise_singleton _ _⟩
        intro s hs
        rcases List.mem_singleton.1 hs with rfl
        exact two_fresh_span_disjoint cfg hbk2
      · intro rr hr
        rw [hemp] at hr
        simp at hr
  obtain ⟨hbwf, hbpw, hsub⟩ := hbase
  have main := region_list_alloc_sound hal hbwf hbpw hget hsucc
  obtain ⟨hp, hr', hle⟩ := lzregion_alloc_align_some hsucc
  refine ⟨main.1, ?_, ?_⟩
  · refine ⟨r', ?_, ?_⟩
    · rw [hregs]
      exact List.getElem?_mem (List.getElem?_set_self hi)
    · intro a ha1 ha2
      have hres := main.2.1 a ha1 ha2
      rw [hr']
      exact hres
  · intro q s hlive a ha1 ha2
    refine main.2.2 q s ?_ a ha1 ha2
    rcases hlive with h0 | ⟨rr, hrr, hb⟩
    · exact Or.inl h0
    · exact Or.inr ⟨rr, hsub rr hrr, hb⟩

theorem region_alloc_within_span {r r' : LZRegion} {size alignment p : Nat}
    (hoff : r.chunk ≤ r.off)
    (hsucc : lzregion_alloc_align size alignment r = (some p, r')) :
    ∀ a, p ≤ a → a < p + size → r.chunk ≤ a ∧ a < r.chunk + r.chunk_len := by
  obtain ⟨hp, hr', hle⟩ := lzregion_alloc_align_some hsucc
  intro a ha1 ha2
  have hs : 0 < size := by omega
  have hb := lzregion_available_alignment_le hs hle
  have hpge : r.off ≤ p := by
    rw [hp]
    exact le_align_forward _ _
  rw [← hp] at hb
  omega

theorem lzarena_alloc_align_none_shape {cfg : LZConfig} {size alignment : Nat}
    {st : LZArena} {bk : List (Option Nat)} {st' : LZArena} {bk' : List (Option Nat)}
    (htw : TailWF st)
    (h : lzarena_alloc_align cfg size alignment st bk = (none, st', bk')) :
    st.tailIdx ≤ st'.tailIdx ∧ TailWF st' ∧
      ∃ extra, st'.regions = st.regions ++ extra ∧ extra.length ≤ 2 ∧
        ∀ r ∈ extra, r.off = r.chunk := by
  unfold lzarena_alloc_align at h
  rcases he : ensure_tail cfg size st bk with ⟨f1, st1, bk1⟩
  rw [he] at h
  cases f1 with
  | true =>
      dsimp only at h
      simp only [Prod.mk.injEq] at h
      obtain ⟨-, hst', -⟩ := h
      obtain ⟨hst1, -⟩ := ensure_tail_true he
      subst hst1
      subst hst'
      exact ⟨Nat.le_refl _, htw, [], by simp, by simp, by simp⟩
  | false =>
      dsimp only at h
      rcases ensure_tail_false he with ⟨hne, hst1, hbk1⟩ | ⟨hemp, b0, hbkeq, hst1⟩
      · subst hst1
        subst hbk1
        have htw1 := htw.2 hne
        obtain ⟨hmono, hlt, hreg⟩ := alloc_from_chain_none_shape htw1 h
        refine ⟨hmono, ?_, ?_⟩
        · constructor
          · intro hemp2
            rw [hemp2] at hlt
            simp at hlt
          · intro _
            exact hlt
        · rcases hreg with heq | ⟨b, hh, heq⟩
          · exact ⟨[], by simpa using heq, by simp, by simp⟩
          · refine ⟨[lzregion_init cfg (region_buff_len cfg size) b], heq, by simp, ?_⟩
            intro r hr
            rcases List.mem_singleton.1 hr with rfl
            rfl
      · subst hst1
        have hst0 : st.tailIdx = 0 := htw.1 hemp
        obtain ⟨hmono, hlt, hreg⟩ := alloc_from_chain_none_shape (by simp) h
        refine ⟨by omega, ?_, ?_⟩
        · constructor
          · intro hemp2
            rw [hemp2] at hlt
            simp at hlt
          · intro _
            exact hlt
        · rcases hreg with heq | ⟨b, hh, heq⟩
          · refine ⟨[lzregion_init cfg (region_buff_len cfg size) b0], ?_, by simp, ?_⟩
            · rw [hemp]
              simpa using heq
            · intro r hr
              rcases List.mem_singleton.1 hr with rfl
              rfl
          · refine ⟨[lzregion_init cfg (region_buff_len cfg size) b0,
              lzregion_init cfg (region_buff_len cfg size) b], ?_, by simp, ?_⟩
            · rw [hemp]
              simpa using heq
            · intro r hr
              rcases List.mem_cons.1 hr with rfl | hr
              · rfl
              · rcases List.mem_singleton.1 hr with rfl
                rfl

theorem lzarena_alloc_align_tail_step (cfg : LZConfig) (size alignment : Nat)
    (st : LZArena) (bk : List (Option Nat)) (htw : TailWF st) :
    st.tailIdx ≤ (lzarena_alloc_align cfg size alignment st bk).2.1.tailIdx ∧
      TailWF (lzarena_alloc_align cfg size alignment st bk).2.1 := by
  rcases hout : lzarena_alloc_align cfg size alignment st bk with ⟨res, st2, bk2⟩
  dsimp only
  cases res with
  | none =>
      obtain ⟨hmono, htw2, -⟩ := lzarena_alloc_align_none_shape htw hout
      exact ⟨hmono, htw2⟩
  | some p =>
      obtain ⟨base, i, r, r', hi, hget, hsucc, hregs, htl, hmono, -⟩ :=
        lzarena_alloc_align_some_shape htw hout
      have hlen : st2.regions.length = base.length := by
        rw [hregs]
        simp
      refine ⟨by omega, ?_, ?_⟩
      · intro hemp2
        rw [hemp2] at hlen
        simp at hlen
        omega
      · intro _
        omega

theorem run_allocs_tail_mono (cfg : LZConfig) (reqs : List (Nat × Nat)) :
    ∀ (st : LZArena) (bk : List (Option Nat)), TailWF st →
      st.tailIdx ≤ (run_allocs cfg reqs st bk).1.tailIdx ∧
        TailWF (run_allocs cfg reqs st bk).1 := by
  induction reqs with
  | nil =>
      intro st bk htw
      exact ⟨Nat.le_refl _, htw⟩
  | cons req rest ih =>
      intro st bk htw
      obtain ⟨h1, htw2⟩ := lzarena_alloc_align_tail_step cfg req.1 req.2 st bk htw
      have hrun : run_allocs cfg (req :: rest) st bk =
          run_allocs cfg rest (lzarena_alloc_align cfg req.1 req.2 st bk).2.1
            (lzarena_alloc_align cfg req.1 req.2 st bk).2.2 := by
        unfold run_allocs
        rw [List.foldl_cons]
      rw [hrun]
      obtain ⟨h2, htw3⟩ := ih _ _ htw2
      exact ⟨Nat.le_trans h1 h2, htw3⟩

theorem region_buff_len_ge (cfg : LZConfig) (size : Nat)
    (hpos : 0 < cfg.pageSize * cfg.factor) :
    size + cfg.regionSize ≤ region_buff_len cfg size := by
  unfold region_buff_len
  dsimp only
  split
  · split
    · rename_i hgt hlt
      have hdm := Nat.div_add_mod (size + cfg.regionSize) (cfg.pageSize * cfg.factor)
      have hm := Nat.mod_lt (size + cfg.regionSize) hpos
      have he : (size + cfg.regionSize) / (cfg.pageSize * cfg.factor) *
            (cfg.pageSize * cfg.factor) =
          (cfg.pageSize * cfg.factor) *
            ((size + cfg.regionSize) / (cfg.pageSize * cfg.factor)) :=
        Nat.mul_comm _ _
      rw [Nat.add_mul, Nat.one_mul, he]
      omega
    · rename_i hgt hnlt
      omega
  · rename_i hng
    omega

/-- Claim C1: for every size and power-of-two alignment, `lzarena_alloc_align`
either returns null, or returns an address that is a multiple of the
alignment such that `[address, address + size)` lies entirely within a
single region's usable span `[chunk, chunk + chunk_len)` and does not
overlap any live allocation of the same arena (no reset in between). -/
theorem lzarena_alloc_align_aligned_no_overlap
    (cfg : LZConfig) (st : LZArena) (bk : List (Option Nat))
    (size alignment k p : Nat) (st' : LZArena) (bk' : List (Option Nat))
    (hal : alignment = 2 ^ k)
    (hwf : ArenaWF st)
    (hbk : BackendOK cfg size st bk)
    (h : lzarena_alloc_align cfg size alignment st bk = (some p, st', bk')) :
    p % alignment = 0 ∧
      (∃ r ∈ st'.regions, ∀ a, p ≤ a → a < p + size →
        r.chunk ≤ a ∧ a < r.chunk + r.chunk_len) ∧
      (∀ q s, LiveAlloc st q s → ∀ a, p ≤ a → a < p + size →
        ¬(q ≤ a ∧ a < q + s)) :=
  lzarena_alloc_align_core_sound hal hwf hbk h

theorem lzarena_alloc_align_aligned_no_overlap_witness :
    (4 : Nat) = 2 ^ 2 ∧ ArenaWF ⟨[], 0⟩ ∧
      BackendOK ⟨16, 1, 8, 8⟩ 4 ⟨[], 0⟩ [some 0] ∧
      ((8 : Nat) % 4 = 0 ∧
        (∃ r ∈ (⟨[⟨0, 16, 8, 12, 8⟩], 0⟩ : LZArena).regions, ∀ a, 8 ≤ a → a < 8 + 4 →
          r.chunk ≤ a ∧ a < r.chunk + r.chunk_len) ∧
        (∀ q s, LiveAlloc ⟨[], 0⟩ q s → ∀ a, 8 ≤ a → a < 8 + 4 →
          ¬(q ≤ a ∧ a < q + s))) :=
  ⟨by decide, by decide, by decide,
    lzarena_alloc_align_aligned_no_overlap ⟨16, 1, 8, 8⟩ ⟨[], 0⟩ [some 0] 4 4 2 8
      ⟨[⟨0, 16, 8, 12, 8⟩], 0⟩ [] (by decide) (by decide) (by decide) (by decide)⟩

/-- Claim C3 (counterexample): a failing allocation is not free of side
effects. With two full regions, tail at position 0, and a failing backend,
`lzarena_alloc_align` returns null but has advanced the tail from position
0 to position 1. -/
theorem lzarena_alloc_align_failure_moves_tail :
    (⟨[⟨0, 16, 8, 16, 8⟩, ⟨100, 16, 8, 116, 108⟩], 0⟩ : LZArena).tailIdx = 0 ∧
      (lzarena_alloc_align ⟨16, 1, 8, 8⟩ 4 1
          ⟨[⟨0, 16, 8, 16, 8⟩, ⟨100, 16, 8, 116, 108⟩], 0⟩ [none]).1 = none ∧
      (lzarena_alloc_align ⟨16, 1, 8, 8⟩ 4 1
          ⟨[⟨0, 16, 8, 16, 8⟩, ⟨100, 16, 8, 116, 108⟩], 0⟩ [none]).2.1.tailIdx = 1 := by
  decide

/-- Claim C3 (amended): when `lzarena_alloc_align` or `lzarena_calloc_align`
cannot satisfy a request it returns null and hands out no memory; every
pre-existing region (cursor, contents, chain position) is unchanged as a
prefix of the chain and `lzarena_calloc_align` leaves byte memory untouched
— but the tail may have advanced, and up to two freshly acquired regions
(cursor still at base) may remain appended to the chain. -/
theorem lzarena_alloc_align_failure_state
    (cfg : LZConfig) (st : LZArena) (bk : List (Option Nat)) (size alignment : Nat)
    (m : Mem) (htw : TailWF st) :
    (∀ st' bk', lzarena_alloc_align cfg size alignment st bk = (none, st', bk') →
      st.tailIdx ≤ st'.tailIdx ∧
        ∃ extra, st'.regions = st.regions ++ extra ∧ extra.length ≤ 2 ∧
          ∀ r ∈ extra, r.off = r.chunk) ∧
    (∀ st' bk' m', lzarena_calloc_align cfg size alignment st bk m = (none, st', bk', m') →
      m' = m ∧ st.tailIdx ≤ st'.tailIdx ∧
        ∃ extra, st'.regions = st.regions ++ extra ∧ extra.length ≤ 2 ∧
          ∀ r ∈ extra, r.off = r.chunk) := by
  constructor
  · intro st' bk' h
    obtain ⟨hmono, -, hextra⟩ := lzarena_alloc_align_none_shape htw h
    exact ⟨hmono, hextra⟩
  · intro st' bk' m' h
    unfold lzarena_calloc_align at h
    rcases ha : lzarena_alloc_align cfg size alignment st bk with ⟨res, stx, bkx⟩
    rw [ha] at h
    cases res with
    | some p =>
        dsimp only at h
        simp at h
    | none =>
        dsimp only at h
        simp only [Prod.mk.injEq] at h
        obtain ⟨-, hst', hbk', hm'⟩ := h
        subst hst'
        obtain ⟨hmono, -, hextra⟩ := lzarena_alloc_align_none_shape htw ha
        exact ⟨hm'.symm, hmono, hextra⟩

theorem lzarena_alloc_align_failure_state_witness :
    TailWF ⟨[⟨0, 16, 8, 16, 8⟩, ⟨100, 16, 8, 116, 108⟩], 0⟩ ∧
      ((∀ st' bk', lzarena_alloc_align ⟨16, 1, 8, 8⟩ 4 1
            ⟨[⟨0, 16, 8, 16, 8⟩, ⟨100, 16, 8, 116, 108⟩], 0⟩ [none] = (none, st', bk') →
          (⟨[⟨0, 16, 8, 16, 8⟩, ⟨100, 16, 8, 116, 108⟩], 0⟩ : LZArena).tailIdx ≤ st'.tailIdx ∧
            ∃ extra, st'.regions =
                (⟨[⟨0, 16, 8, 16, 8⟩, ⟨100, 16, 8, 116, 108⟩], 0⟩ : LZArena).regions ++ extra ∧
              extra.length ≤ 2 ∧ ∀ r ∈ extra, r.off = r.chunk) ∧
        (∀ st' bk' m', lzarena_calloc_align ⟨16, 1, 8, 8⟩ 4 1
            ⟨[⟨0, 16, 8, 16, 8⟩, ⟨100, 16, 8, 116, 108⟩], 0⟩ [none] (fun _ => 0) =
              (none, st', bk', m') →
          m' = (fun _ => 0) ∧
            (⟨[⟨0, 16, 8, 16, 8⟩, ⟨100, 16, 8, 116, 108⟩], 0⟩ : LZArena).tailIdx ≤ st'.tailIdx ∧
            ∃ extra, st'.regions =
                (⟨[⟨0, 16, 8, 16, 8⟩, ⟨100, 16, 8, 116, 108⟩], 0⟩ : LZArena).regions ++ extra ∧
              extra.length ≤ 2 ∧ ∀ r ∈ extra, r.off = r.chunk)) :=
  ⟨by decide,
    lzarena_alloc_align_failure_state ⟨16, 1, 8, 8⟩
      ⟨[⟨0, 16, 8, 16, 8⟩, ⟨100, 16, 8, 116, 108⟩], 0⟩ [none] 4 1 (fun _ => 0) (by decide)⟩

/-- Claim C4 (counterexample): an oversize request does not always append
exactly one region. With default block 16 (pageSize 16, factor 1), size 17
(> 16) and alignment 16 from an empty arena, the first appended region
cannot fit the request because of alignment padding, so a second region is
appended (both backend acquisitions succeed): the call returns pointer 112
from the second region and the chain ends with two regions, not one. -/
theorem lzarena_alloc_align_oversize_two_appends :
    (lzarena_alloc_align ⟨16, 1, 8, 8⟩ 17 16 ⟨[], 0⟩ [some 0, some 100]).1 = some 112 ∧
      (lzarena_alloc_align ⟨16, 1, 8, 8⟩ 17 16 ⟨[], 0⟩
          [some 0, some 100]).2.1.regions.length = 2 := by
  decide

/-- Claim C4 (amended): for a power-of-two alignment dividing the default
alignment, when the backend yields a buffer aligned to the default
alignment, the region header size is a multiple of the default alignment
and the default block `pageSize * factor` is positive, an allocation of
`size` greater than the default block from an empty arena succeeds, the
chain ends with exactly one (new) region, and that region's usable length
is at least `size`. -/
theorem lzarena_alloc_align_oversize_grows_once
    (cfg : LZConfig) (bkrest : List (Option Nat)) (size alignment b d kk : Nat)
    (hda : cfg.defAlign = 2 ^ d)
    (hal : alignment = 2 ^ kk)
    (hdiv : alignment ∣ cfg.defAlign)
    (hab : cfg.defAlign ∣ b)
    (hrs : cfg.defAlign ∣ cfg.regionSize)
    (hpos : 0 < cfg.pageSize * cfg.factor)
    (hsize : cfg.pageSize * cfg.factor < size) :
    ∃ p st' bk',
      lzarena_alloc_align cfg size alignment ⟨[], 0⟩ (some b :: bkrest) =
        (some p, st', bk') ∧
      st'.regions.length = 1 ∧ ∀ r ∈ st'.regions, size ≤ r.chunk_len := by
  have hL := region_buff_len_ge cfg size hpos
  have hb1 : align_forward b cfg.defAlign = b := by
    rw [hda]
    exact align_forward_of_dvd (hda ▸ hab)
  have hb2 : align_forward (b + cfg.regionSize) cfg.defAlign = b + cfg.regionSize := by
    rw [hda]
    exact align_forward_of_dvd (dvd_add (hda ▸ hab) (hda ▸ hrs))
  have hRdef : lzregion_init cfg (region_buff_len cfg size) b =
      ⟨b, region_buff_len cfg size,
        b + region_buff_len cfg size - (b + cfg.regionSize),
        b + cfg.regionSize, b + cfg.regionSize⟩ := by
    unfold lzregion_init
    dsimp only
    rw [hb1, hb2]
  have hclen : size ≤ b + region_buff_len cfg size - (b + cfg.regionSize) := by
    omega
  have hszpos : 0 < size := by omega
  have hoffal : align_forward (b + cfg.regionSize) alignment = b + cfg.regionSize := by
    rw [hal]
    refine align_forward_of_dvd ?_
    rw [← hal]
    exact dvd_trans hdiv (dvd_add hab hrs)
  have hens : ensure_tail cfg size ⟨[], 0⟩ (some b :: bkrest) =
      (false, ⟨[lzregion_init cfg (region_buff_len cfg size) b], 0⟩, bkrest) := rfl
  have havail0 : lzregion_available_alignment alignment
      (⟨b, region_buff_len cfg size,
        b + region_buff_len cfg size - (b + cfg.regionSize),
        b + cfg.regionSize, b + cfg.regionSize⟩ : LZRegion) =
      b + region_buff_len cfg size - (b + cfg.regionSize) := by
    unfold lzregion_available_alignment
    dsimp only
    rw [hoffal]
    rw [if_neg (by omega)]
    omega
  have hralloc0 : lzregion_alloc_align size alignment
      (⟨b, region_buff_len cfg size,
        b + region_buff_len cfg size - (b + cfg.regionSize),
        b + cfg.regionSize, b + cfg.regionSize⟩ : LZRegion) =
      (some (b + cfg.regionSize),
        ⟨b, region_buff_len cfg size,
          b + region_buff_len cfg size - (b + cfg.regionSize),
          b + cfg.regionSize + size, b + cfg.regionSize⟩) := by
    unfold lzregion_alloc_align
    dsimp only
    rw [havail0, if_neg (by omega)]
    rw [hoffal]
  have hw0 : walk_tail size alignment
      (List.drop 0 [(⟨b, region_buff_len cfg size,
        b + region_buff_len cfg size - (b + cfg.regionSize),
        b + cfg.regionSize, b + cfg.regionSize⟩ : LZRegion)]) 0 = 0 := rfl
  refine ⟨b + cfg.regionSize,
    ⟨[⟨b, region_buff_len cfg size,
        b + region_buff_len cfg size - (b + cfg.regionSize),
        b + cfg.regionSize + size, b + cfg.regionSize⟩], 0⟩, bkrest, ?_, by simp, ?_⟩
  · unfold lzarena_alloc_align
    rw [hens]
    dsimp only
    unfold alloc_from_chain
    dsimp only
    rw [hRdef]
    rw [hw0]
    rw [List.getD_cons_zero, havail0, if_neg (by omega)]
    rw [alloc_at_tail_eq]
    dsimp only
    rw [List.getD_cons_zero, hralloc0]
    rfl
  · intro r hr
    rcases List.mem_singleton.1 hr with rfl
    exact hclen

theorem lzarena_alloc_align_oversize_grows_once_witness :
    (⟨16, 1, 8, 8⟩ : LZConfig).defAlign = 2 ^ 3 ∧ (8 : Nat) = 2 ^ 3 ∧
      (8 : Nat) ∣ (⟨16, 1, 8, 8⟩ : LZConfig).defAlign ∧
      (⟨16, 1, 8, 8⟩ : LZConfig).defAlign ∣ 0 ∧
      (⟨16, 1, 8, 8⟩ : LZConfig).defAlign ∣ (⟨16, 1, 8, 8⟩ : LZConfig).regionSize ∧
      0 < (⟨16, 1, 8, 8⟩ : LZConfig).pageSize * (⟨16, 1, 8, 8⟩ : LZConfig).factor ∧
      (⟨16, 1, 8, 8⟩ : LZConfig).pageSize * (⟨16, 1, 8, 8⟩ : LZConfig).factor < 17 ∧
      (∃ p st' bk',
        lzarena_alloc_align ⟨16, 1, 8, 8⟩ 17 8 ⟨[], 0⟩ (some 0 :: []) =
          (some p, st', bk') ∧
        st'.regions.length = 1 ∧ ∀ r ∈ st'.regions, 17 ≤ r.chunk_len) :=
  ⟨by decide, by decide, by decide, by decide, by decide, by decide, by decide,
    lzarena_alloc_align_oversize_grows_once ⟨16, 1, 8, 8⟩ [] 17 8 0 3 3
      (by decide) (by decide) (by decide) (by decide) (by decide) (by decide) (by decide)⟩

/-- Claim C8 (counterexample): growing a zero-sized live allocation can
return the same address. With a region whose cursor sits at the live
pointer 8 (allocated with size 0), `lzarena_realloc_align(8, 0, 4, 1)`
returns pointer 8 itself, not a different address. -/
theorem lzarena_realloc_align_zero_old_same_addr :
    LiveAlloc ⟨[⟨0, 32, 8, 8, 8⟩], 0⟩ 8 0 ∧ (0 : Nat) < 4 ∧
      (lzarena_realloc_align ⟨16, 1, 8, 8⟩ (some 8) 0 4 1 ⟨[⟨0, 32, 8, 8, 8⟩], 0⟩ []
          (fun _ => 0)).1 = some 8 := by
  refine ⟨by decide, by decide, ?_⟩
  decide

/-- Claim C8 (amended): for a live allocation `[p, p + old_size)` with
`old_size > 0` and a power-of-two alignment: shrinking
(`new_size ≤ old_size`) returns `p` with arena, backend and memory
untouched; growing (`new_size > old_size`), when it returns a pointer,
returns a different address whose first `old_size` bytes equal the bytes at
`p` before the call. -/
theorem lzarena_realloc_align_spec
    (cfg : LZConfig) (st : LZArena) (bk : List (Option Nat)) (m : Mem)
    (p old_size new_size alignment k : Nat)
    (hal : alignment = 2 ^ k)
    (hwf : ArenaWF st)
    (hbk : BackendOK cfg new_size st bk)
    (hlive : LiveAlloc st p old_size)
    (hold : 0 < old_size) :
    (new_size ≤ old_size →
      lzarena_realloc_align cfg (some p) old_size new_size alignment st bk m =
        (some p, st, bk, m)) ∧
    (∀ q st' bk' m', old_size < new_size →
      lzarena_realloc_align cfg (some p) old_size new_size alignment st bk m =
        (some q, st', bk', m') →
      q ≠ p ∧ ∀ j, j < old_size → m' (q + j) = m (p + j)) := by
  constructor
  · intro hle
    unfold lzarena_realloc_align
    rw [if_pos hle]
  · intro q st' bk' m' hgt h
    unfold lzarena_realloc_align at h
    rw [if_neg (by omega)] at h
    rcases ha : lzarena_alloc_align cfg new_size alignment st bk with ⟨res, stx, bkx⟩
    rw [ha] at h
    cases res with
    | none =>
        dsimp only at h
        simp at h
    | some q0 =>
        dsimp only at h
        simp only [Prod.mk.injEq, Option.some.injEq] at h
        obtain ⟨hq, hst', hbk', hm'⟩ := h
        subst hq
        have main := lzarena_alloc_align_core_sound hal hwf hbk ha
        have hnov := main.2.2 p old_size hlive
        constructor
        · intro he
          exact hnov q0 (Nat.le_refl q0) (by omega) ⟨by omega, by omega⟩
        · intro j hj
          rw [← hm']
          unfold memcpy
          rw [if_pos ⟨by omega, by omega⟩]
          congr 1
          omega

theorem lzarena_realloc_align_spec_witness :
    (4 : Nat) = 2 ^ 2 ∧ ArenaWF ⟨[⟨0, 32, 16, 20, 16⟩], 0⟩ ∧
      BackendOK ⟨16, 1, 8, 8⟩ 8 ⟨[⟨0, 32, 16, 20, 16⟩], 0⟩ [] ∧
      LiveAlloc ⟨[⟨0, 32, 16, 20, 16⟩], 0⟩ 16 4 ∧ (0 : Nat) < 4 ∧
      ((8 ≤ 4 →
        lzarena_realloc_align ⟨16, 1, 8, 8⟩ (some 16) 4 8 4 ⟨[⟨0, 32, 16, 20, 16⟩], 0⟩ []
            (fun a => a) =
          (some 16, ⟨[⟨0, 32, 16, 20, 16⟩], 0⟩, [], fun a => a)) ∧
      (∀ q st' bk' m', 4 < 8 →
        lzarena_realloc_align ⟨16, 1, 8, 8⟩ (some 16) 4 8 4 ⟨[⟨0, 32, 16, 20, 16⟩], 0⟩ []
            (fun a => a) = (some q, st', bk', m') →
        q ≠ 16 ∧ ∀ j, j < 4 → m' (q + j) = (fun a => a) (16 + j))) :=
  ⟨by decide, by decide, by decide, by decide, by decide,
    lzarena_realloc_align_spec ⟨16, 1, 8, 8⟩ ⟨[⟨0, 32, 16, 20, 16⟩], 0⟩ [] (fun a => a)
      16 4 8 4 2 (by decide) (by decide) (by decide) (by decide) (by decide)⟩

/-- Claim C9: the tail only moves forward. A single `lzarena_alloc_align`
call never decreases the tail position; when it returns a pointer, the
requested range lies in the span of the region the final tail points at —
never in a region strictly before the tail at the start of the call — and
across any sequence of allocation calls (no reset in between) the tail
position is monotonically non-decreasing. -/
theorem lzarena_alloc_align_tail_forward
    (cfg : LZConfig) (st : LZArena) (bk : List (Option Nat)) (size alignment : Nat)
    (hwf1 : ∀ r ∈ st.regions, r.chunk ≤ r.off)
    (htw : TailWF st) :
    st.tailIdx ≤ (lzarena_alloc_align cfg size alignment st bk).2.1.tailIdx ∧
      (∀ p st' bk', lzarena_alloc_align cfg size alignment st bk = (some p, st', bk') →
        st.tailIdx ≤ st'.tailIdx ∧
          ∃ r, st'.regions[st'.tailIdx]? = some r ∧
            ∀ a, p ≤ a → a < p + size → r.chunk ≤ a ∧ a < r.chunk + r.chunk_len) ∧
      (∀ reqs : List (Nat × Nat), st.tailIdx ≤ (run_allocs cfg reqs st bk).1.tailIdx) := by
  refine ⟨(lzarena_alloc_align_tail_step cfg size alignment st bk htw).1, ?_, ?_⟩
  · intro p st' bk' h
    obtain ⟨base, i, r, r', hi, hget, hsucc, hregs, htl, hmono, hprov⟩ :=
      lzarena_alloc_align_some_shape htw h
    have hbwf : ∀ s ∈ base, s.chunk ≤ s.off := by
      rcases hprov with rfl | ⟨b, hh, rfl⟩ | ⟨b1, b2, hemp, h0, h1, rfl⟩
      · exact hwf1
      · intro s hs
        rcases List.mem_append.1 hs with hs | hs
        · exact hwf1 s hs
        · rcases List.mem_singleton.1 hs with rfl
          exact Nat.le_refl _
      · intro s hs
        rcases List.mem_cons.1 hs with rfl | hs
        · exact Nat.le_refl _
        · rcases List.mem_singleton.1 hs with rfl
          exact Nat.le_refl _
    have hrw : r ∈ base := List.getElem?_mem hget
    have hspan := region_alloc_within_span (hbwf r hrw) hsucc
    refine ⟨by omega, r', ?_, ?_⟩
    · rw [hregs, htl]
      exact List.getElem?_set_self hi
    · intro a ha1 ha2
      have hm := hspan a ha1 ha2
      obtain ⟨hp, hr', -⟩ := lzregion_alloc_align_some hsucc
      rw [hr']
      exact hm
  · intro reqs
    exact (run_allocs_tail_mono cfg reqs st bk htw).1

theorem lzarena_alloc_align_tail_forward_witness :
    (∀ r ∈ (⟨[⟨0, 16, 8, 8, 8⟩], 0⟩ : LZArena).regions, r.chunk ≤ r.off) ∧
      TailWF ⟨[⟨0, 16, 8, 8, 8⟩], 0⟩ ∧
      ((⟨[⟨0, 16, 8, 8, 8⟩], 0⟩ : LZArena).tailIdx ≤
          (lzarena_alloc_align ⟨16, 1, 8, 8⟩ 4 1 ⟨[⟨0, 16, 8, 8, 8⟩], 0⟩ []).2.1.tailIdx ∧
        (∀ p st' bk', lzarena_alloc_align ⟨16, 1, 8, 8⟩ 4 1 ⟨[⟨0, 16, 8, 8, 8⟩], 0⟩ [] =
            (some p, st', bk') →
          (⟨[⟨0, 16, 8, 8, 8⟩], 0⟩ : LZArena).tailIdx ≤ st'.tailIdx ∧
            ∃ r, st'.regions[st'.tailIdx]? = some r ∧
              ∀ a, p ≤ a → a < p + 4 → r.chunk ≤ a ∧ a < r.chunk + r.chunk_len) ∧
        (∀ reqs : List (Nat × Nat),
          (⟨[⟨0, 16, 8, 8, 8⟩], 0⟩ : LZArena).tailIdx ≤
            (run_allocs ⟨16, 1, 8, 8⟩ reqs ⟨[⟨0, 16, 8, 8, 8⟩], 0⟩ []).1.tailIdx)) :=
  ⟨by decide, by decide,
    lzarena_alloc_align_tail_forward ⟨16, 1, 8, 8⟩ ⟨[⟨0, 16, 8, 8, 8⟩], 0⟩ [] 4 1
      (by decide) (by decide)⟩

theorem prov_mem {cfg : LZConfig} {size : Nat} {st : LZArena} {bk : List (Option Nat)}
    {base : List LZRegion}
    (hprov : base = st.regions ∨
      (∃ b, bk.head? = some (some b) ∧
        base = st.regions ++ [lzregion_init cfg (region_buff_len cfg size) b]) ∨
      (∃ b1 b2, st.regions = [] ∧ bk[0]? = some (some b1) ∧ bk[1]? = some (some b2) ∧
        base = [lzregion_init cfg (region_buff_len cfg size) b1,
          lzregion_init cfg (region_buff_len cfg size) b2])) :
    ∀ r ∈ base, r ∈ st.regions ∨ r.off = r.chunk := by
  intro r hr
  rcases hprov with rfl | ⟨b, -, rfl⟩ | ⟨b1, b2, -, -, -, rfl⟩
  · exact Or.inl hr
  · rcases List.mem_append.1 hr with hr | hr
    · exact Or.inl hr
    · rcases List.mem_singleton.1 hr with rfl
      exact Or.inr rfl
  · rcases List.mem_cons.1 hr with rfl | hr
    · exact Or.inr rfl
    · rcases List.mem_singleton.1 hr with rfl
      exact Or.inr rfl

/-- After a successful allocation the returned block itself is live in the
new state, and every block live before the call stays live: the history
invariant feeding `lzarena_alloc_align_core_sound` is maintained. -/
theorem lzarena_alloc_align_live_after {cfg : LZConfig} {st : LZArena}
    {bk : List (Option Nat)} {size alignment p : Nat} {st' : LZArena}
    {bk' : List (Option Nat)}
    (hwf1 : ∀ r ∈ st.regions, r.chunk ≤ r.off)
    (htw : TailWF st)
    (h : lzarena_alloc_align cfg size alignment st bk = (some p, st', bk')) :
    LiveAlloc st' p size ∧ ∀ q s, LiveAlloc st q s → LiveAlloc st' q s := by
  obtain ⟨base, i, r, r', hi, hget, hsucc, hregs, htl, hmono, hprov⟩ :=
    lzarena_alloc_align_some_shape htw h
  obtain ⟨hp, hr', hle⟩ := lzregion_alloc_align_some hsucc
  have hbwf : ∀ s ∈ base, s.chunk ≤ s.off := by
    intro s hs
    rcases prov_mem hprov s hs with hm | hm
    · exact hwf1 s hm
    · omega
  have hrmem : r ∈ base := List.getElem?_mem hget
  have hroff : r.chunk ≤ r.off := hbwf r hrmem
  have hpoff : r.off ≤ p := by
    rw [hp]
    exact le_align_forward _ _
  have hrmem' : r' ∈ st'.regions := by
    rw [hregs]
    exact List.getElem?_mem (List.getElem?_set_self hi)
  constructor
  · rcases Nat.eq_zero_or_pos size with hz | hpos
    · exact Or.inl hz
    · right
      refine ⟨r', hrmem', ?_, ?_, ?_⟩
      · rw [hr']
        dsimp only
        omega
      · rw [hr']
      · rw [hr']
        dsimp only
        have hb := lzregion_available_alignment_le hpos hle
        rw [← hp] at hb
        exact hb
  · intro q s hlv
    rcases hlv with hz | ⟨rr, hrr, hb1, hb2, hb3⟩
    · exact Or.inl hz
    · right
      have hrrb : rr ∈ base := by
        rcases hprov with rfl | ⟨b, -, rfl⟩ | ⟨b1, b2, hemp, -, -, rfl⟩
        · exact hrr
        · exact List.mem_append_left _ hrr
        · rw [hemp] at hrr
          simp at hrr
      obtain ⟨j, hjlt, hjeq⟩ := List.mem_iff_getElem.1 hrrb
      by_cases hij : j = i
      · subst hij
        obtain ⟨hi', hieq⟩ := List.getElem?_eq_some_iff.1 hget
        have hre : rr = r := by
          rw [← hjeq]
          exact hieq
        subst hre
        refine ⟨r', hrmem', ?_, ?_, ?_⟩
        · rw [hr']
          dsimp only
          omega
        · rw [hr']
          dsimp only
          omega
        · rw [hr']
          dsimp only
          omega
      · refine ⟨rr, ?_, hb1, hb2, hb3⟩
        rw [hregs]
        have hje : (base.set i r')[j]? = some rr := by
          rw [List.getElem?_set_ne (by omega)]
          exact List.getElem?_eq_some_iff.2 ⟨hjlt, hjeq⟩
        exact List.getElem?_mem hje
